import Mathlib

/-!
Verification of the two numerical components of the repository:
`QuantileMappingCorrection` (algorithms/scientific/bias_correction.py) and
`BayesianModelAveraging` (algorithms/scientific/bayesian_ensemble.py).

The Python code is shallowly embedded over `ℝ` (the idealisation of the
floating-point arithmetic the source performs with numpy).  Arrays become
`List ℝ`, dictionaries become association lists `List (String × _)`, and a
method that can raise becomes a function into `Except String _` whose error
branches correspond exactly to the places the source (or the scipy routine it
calls) raises.
-/

namespace QPS

/-- `np.mean(xs)`: arithmetic mean (junk value `0` on the empty list, where
numpy returns `nan` with a warning and does not raise). -/
noncomputable def npMean (xs : List ℝ) : ℝ := xs.sum / xs.length

/-- `np.var(xs, ddof=0)`: population variance, i.e. the mean of the squared
deviations from the mean. -/
noncomputable def npVar (xs : List ℝ) : ℝ :=
  ((xs.map (fun x => (x - npMean xs) ^ 2)).sum) / xs.length

/-- `np.std(xs)`: square root of the population variance. -/
noncomputable def npStd (xs : List ℝ) : ℝ := Real.sqrt (npVar xs)

/-- `np.sort(xs)` (ascending). -/
noncomputable def npSort (xs : List ℝ) : List ℝ :=
  xs.mergeSort (fun a b => decide (a ≤ b))

/-- `np.min(xs)` (junk value `0` on the empty list, where numpy raises). -/
noncomputable def npMin : List ℝ → ℝ
  | [] => 0
  | x :: xs => xs.foldl min x

/-- `np.max(xs)` (junk value `0` on the empty list, where numpy raises). -/
noncomputable def npMax : List ℝ → ℝ
  | [] => 0
  | x :: xs => xs.foldl max x

/-! ## BayesianModelAveraging -/

/-- `residuals = observations - predictions` (numpy elementwise subtraction). -/
noncomputable def residuals (predictions observations : List ℝ) : List ℝ :=
  List.zipWith (fun o p => o - p) observations predictions

/-- `BayesianModelAveraging.estimate_variance`:
`np.var(residuals, ddof=0) + 1e-10`. -/
noncomputable def estimate_variance (predictions observations : List ℝ) : ℝ :=
  npVar (residuals predictions observations) + 1e-10

/-- `rss = np.sum(residuals ** 2)` as computed inside `compute_log_likelihood`. -/
noncomputable def rss (predictions observations : List ℝ) : ℝ :=
  ((residuals predictions observations).map (fun r => r ^ 2)).sum

/-- `BayesianModelAveraging.compute_log_likelihood`:
`-n/2 * log(2 * pi * variance) - rss / (2 * variance)`. -/
noncomputable def compute_log_likelihood (predictions observations : List ℝ)
    (variance : ℝ) : ℝ :=
  -(observations.length : ℝ) / 2 * Real.log (2 * Real.pi * variance) -
    rss predictions observations / (2 * variance)

/-- The residual variance as the spec sentence and the docstring of
`estimate_variance` itself state it: `mean((obs - pred)^2)` (the MLE formula
`Σ(y_i - μ_i)² / n`), plus the same `1e-10` stabiliser.  This definition
follows the spec's words; it is compared against `estimate_variance`, which
follows the source body. -/
noncomputable def specResidualVariance (predictions observations : List ℝ) : ℝ :=
  ((residuals predictions observations).map (fun r => r ^ 2)).sum /
    (observations.length : ℝ) + 1e-10

/-- C1: On predictions `[0, 0]` and observations `[1, 2]` the residuals are
`[1, 2]`; the code stores `np.var([1,2]) + 1e-10 = 1/4 + 1e-10`, while the
claimed (and docstring) formula `mean((obs-pred)^2) + 1e-10` gives
`5/2 + 1e-10`.  The two disagree, so the stored variance is not the mean of
the squared residuals. -/
theorem c1_variance_is_not_mean_squared_residuals :
    estimate_variance [(0 : ℝ), 0] [1, 2] = 1 / 4 + 1e-10 ∧
    specResidualVariance [(0 : ℝ), 0] [1, 2] = 5 / 2 + 1e-10 ∧
    estimate_variance [(0 : ℝ), 0] [1, 2] ≠
      specResidualVariance [(0 : ℝ), 0] [1, 2] := by
  have h1 : estimate_variance [(0 : ℝ), 0] [1, 2] = 1 / 4 + 1e-10 := by
    simp [estimate_variance, npVar, npMean, residuals]
    norm_num
  have h2 : specResidualVariance [(0 : ℝ), 0] [1, 2] = 5 / 2 + 1e-10 := by
    simp [specResidualVariance, residuals]
    norm_num
  refine ⟨h1, h2, ?_⟩
  rw [h1, h2]
  norm_num

/-! ### compute_weights

`models_predictions` is a Python dict `name -> array`; we embed it as an
association list queried with `List.lookup`.  `prior_weights` is an optional
dict with the default `prior_weights.get(name, 1.0 / n_models)`. -/

/-- The models the `for name in self.model_names` loop of `compute_weights`
actually processes: names of `model_names` for which `models_predictions`
has an entry (`if name not in models_predictions: continue`). -/
def includedModels (modelNames : List String) (mp : List (String × List ℝ)) :
    List String :=
  modelNames.filter (fun n => (mp.lookup n).isSome)

/-- `prior_weights.get(name, 1.0 / self.n_models)`, with the uniform dict
substituted when `prior_weights is None`. -/
noncomputable def priorOf (modelNames : List String)
    (priors : Option (List (String × ℝ))) (n : String) : ℝ :=
  match priors with
  | none => 1 / (modelNames.length : ℝ)
  | some l => (l.lookup n).getD (1 / (modelNames.length : ℝ))

/-- `log_posteriors[name] = log(prior) + log_likelihood`, where the likelihood
is evaluated at the model's predictions and its `estimate_variance`. -/
noncomputable def logPosterior (modelNames : List String)
    (mp : List (String × List ℝ)) (obs : List ℝ)
    (priors : Option (List (String × ℝ))) (n : String) : ℝ :=
  Real.log (priorOf modelNames priors n) +
    compute_log_likelihood ((mp.lookup n).getD []) obs
      (estimate_variance ((mp.lookup n).getD []) obs)

/-- `log_evidence = logsumexp(list(log_posteriors.values()))`.  Mathematically
`logsumexp xs = log (Σ exp xs)`; the max-subtraction scipy performs is an
overflow guard that does not change the real value. -/
noncomputable def logEvidence (modelNames : List String)
    (mp : List (String × List ℝ)) (obs : List ℝ)
    (priors : Option (List (String × ℝ))) : ℝ :=
  Real.log (((includedModels modelNames mp).map
    (fun n => Real.exp (logPosterior modelNames mp obs priors n))).sum)

/-- `weights[name] = exp(log_post - log_evidence)`. -/
noncomputable def posteriorWeight (modelNames : List String)
    (mp : List (String × List ℝ)) (obs : List ℝ)
    (priors : Option (List (String × ℝ))) (n : String) : ℝ :=
  Real.exp (logPosterior modelNames mp obs priors n -
    logEvidence modelNames mp obs priors)

theorem list_map_sum_div {α : Type} (l : List α) (g : α → ℝ) (c : ℝ) :
    (l.map (fun a => g a / c)).sum = (l.map g).sum / c := by
  induction l with
  | nil => simp
  | cons x t ih => simp [ih, add_div]

/-- C2: over the included models, the posterior weights returned by
`compute_weights` sum to `1` exactly (hence to `1.0` within `1e-9`), for any
observations, any prior dictionary and any predictions dictionary covering at
least one declared model. -/
theorem c2_weights_sum_to_one (modelNames : List String)
    (mp : List (String × List ℝ)) (obs : List ℝ)
    (priors : Option (List (String × ℝ)))
    (hne : includedModels modelNames mp ≠ []) :
    |((includedModels modelNames mp).map
      (fun n => posteriorWeight modelNames mp obs priors n)).sum - 1| ≤ 1e-9 := by
  set L := includedModels modelNames mp with hL
  set f : String → ℝ := fun n => Real.exp (logPosterior modelNames mp obs priors n)
    with hf
  have hpos : ∀ x ∈ L.map f, 0 < x := by
    intro x hx
    rcases List.mem_map.mp hx with ⟨n, _, rfl⟩
    exact Real.exp_pos _
  have hS : 0 < (L.map f).sum :=
    List.sum_pos _ hpos (by simpa using hne)
  have hw : ∀ n, posteriorWeight modelNames mp obs priors n = f n / (L.map f).sum := by
    intro n
    rw [posteriorWeight, Real.exp_sub, logEvidence, Real.exp_log hS]
  have hmap : L.map (fun n => posteriorWeight modelNames mp obs priors n) =
      L.map (fun n => f n / (L.map f).sum) := by
    exact List.map_congr_left (fun n _ => hw n)
  rw [hmap, list_map_sum_div, div_self (ne_of_gt hS)]
  norm_num

/-- C2 witness: a single declared model with a two-point series; the weight
sum over the included models is within `1e-9` of `1`. -/
theorem c2_weights_sum_to_one_witness :
    |((includedModels ["A"] [("A", [(1 : ℝ), 2])]).map
      (fun n => posteriorWeight ["A"] [("A", [(1 : ℝ), 2])] [1, 2] none n)).sum
      - 1| ≤ 1e-9 :=
  c2_weights_sum_to_one ["A"] [("A", [(1 : ℝ), 2])] [1, 2] none
    (by simp [includedModels])

/-! ### predict

`predict` first stacks, in dictionary order, the prediction rows of the models
that have a stored posterior weight (`all_preds`, `weights`), computes the
weighted mean, and then loops `for i, name in enumerate(models_predictions)`
accumulating the within-model and between-model variance terms, indexing the
filtered stack `all_preds` with the unfiltered index `i`.  When a model of
`models_predictions` has no stored weight but is followed by one that has,
that indexing goes out of range (an `IndexError` in numpy terms); the loop is
embedded with an explicit bound check returning `none` exactly there. -/

/-- The entries of `models_predictions` whose name is in `posterior_weights`
(the rows the `all_preds` / `weights` stacking keeps, in order). -/
def presentEntries (mp : List (String × List ℝ)) (pw : List (String × ℝ)) :
    List (String × List ℝ) :=
  mp.filter (fun e => (pw.lookup e.1).isSome)

/-- `self.posterior_weights[name]` (the lookup never defaults in the loop,
which only runs for names present in the dict). -/
noncomputable def weightOf (pw : List (String × ℝ)) (n : String) : ℝ :=
  (pw.lookup n).getD 0

/-- `self.model_variances.get(name, 1.0)`. -/
noncomputable def varianceOf (mv : List (String × ℝ)) (n : String) : ℝ :=
  (mv.lookup n).getD 1

/-- `all_preds` : the stacked prediction rows of the present models. -/
def allPreds (mp : List (String × List ℝ)) (pw : List (String × ℝ)) :
    List (List ℝ) :=
  (presentEntries mp pw).map (fun e => e.2)

/-- `bma_mean[t] = np.sum(weights[:, None] * all_preds, axis=0)[t]`:
the weighted sum, at time `t`, of the stacked rows. -/
noncomputable def bmaMean (mp : List (String × List ℝ)) (pw : List (String × ℝ))
    (t : ℕ) : ℝ :=
  ((presentEntries mp pw).map
    (fun e => weightOf pw e.1 * e.2.getD t 0)).sum

/-- The accumulation loop of `predict` at time step `t`: iterates over all of
`models_predictions` with the enumerate index `i`, skips names without a
stored weight, and for the others adds `w * var` to the within-variance and
`w * (all_preds[i][t] - bma_mean[t])²` to the between-variance; `none` models
the `IndexError` raised when `i` reaches past the filtered stack. -/
noncomputable def predictVarLoop (pw mv : List (String × ℝ))
    (preds : List (List ℝ)) (m : ℝ) (t : ℕ) :
    List (String × List ℝ) → ℕ → Option (ℝ × ℝ)
  | [], _ => some (0, 0)
  | e :: rest, i =>
    if (pw.lookup e.1).isSome then
      if i < preds.length then
        match predictVarLoop pw mv preds m t rest (i + 1) with
        | none => none
        | some (wv, bv) =>
          some (wv + weightOf pw e.1 * varianceOf mv e.1,
                bv + weightOf pw e.1 * ((preds.getD i []).getD t 0 - m) ^ 2)
      else none
    else predictVarLoop pw mv preds m t rest (i + 1)

/-- `bma_var[t] = within_var[t] + between_var[t]` for the returned prediction
(`none` when the loop raises). -/
noncomputable def bmaTotalVar (mp : List (String × List ℝ))
    (pw mv : List (String × ℝ)) (t : ℕ) : Option ℝ :=
  (predictVarLoop pw mv (allPreds mp pw) (bmaMean mp pw t) t mp 0).map
    (fun p => p.1 + p.2)

/-- `std[t] = sqrt(bma_var[t])` of the returned prediction. -/
noncomputable def bmaStd (mp : List (String × List ℝ))
    (pw mv : List (String × ℝ)) (t : ℕ) : Option ℝ :=
  (bmaTotalVar mp pw mv t).map Real.sqrt

/-- The within-model variance exactly as the claim words it:
`Σ w_i * var_i` over the models present in both the input and the stored
posterior weights. -/
noncomputable def withinVarSpec (mp : List (String × List ℝ))
    (pw mv : List (String × ℝ)) : ℝ :=
  ((presentEntries mp pw).map
    (fun e => weightOf pw e.1 * varianceOf mv e.1)).sum

/-- The between-model variance exactly as the claim words it:
`Σ w_i * (pred_i[t] - weighted_mean[t])²` over the models present in both the
input and the stored posterior weights. -/
noncomputable def betweenVarSpec (mp : List (String × List ℝ))
    (pw : List (String × ℝ)) (t : ℕ) : ℝ :=
  ((presentEntries mp pw).map
    (fun e => weightOf pw e.1 * (e.2.getD t 0 - bmaMean mp pw t) ^ 2)).sum

theorem getD_of_drop_cons {α : Type} (d : α) :
    ∀ (l : List α) (i : ℕ) (a : α) (t : List α),
      l.drop i = a :: t → l.getD i d = a := by
  intro l
  induction l with
  | nil => intro i a t h; simp at h
  | cons x xs ih =>
    intro i a t h
    cases i with
    | zero => simp at h; simp [h.1]
    | succ i => exact ih i a t h

/-- If the loop returns a value, the present entries of the remaining list fit
inside the stack from position `i` on (otherwise the bound check fails). -/
theorem predictVarLoop_count (pw mv : List (String × ℝ))
    (preds : List (List ℝ)) (m : ℝ) (t : ℕ) :
    ∀ (rest : List (String × List ℝ)) (i : ℕ) (r : ℝ × ℝ),
      predictVarLoop pw mv preds m t rest i = some r →
      (presentEntries rest pw).length = 0 ∨
        (presentEntries rest pw).length + i ≤ preds.length := by
  intro rest
  induction rest with
  | nil => intro i r _; simp [presentEntries]
  | cons e rest ih =>
    intro i r h
    rw [predictVarLoop] at h
    by_cases hp : (pw.lookup e.1).isSome
    · rw [if_pos hp] at h
      by_cases hi : i < preds.length
      · rw [if_pos hi] at h
        cases hrec : predictVarLoop pw mv preds m t rest (i + 1) with
        | none => rw [hrec] at h; simp at h
        | some r2 =>
          have hlen : (presentEntries (e :: rest) pw).length =
              (presentEntries rest pw).length + 1 := by
            simp [presentEntries, hp]
          rcases ih (i + 1) r2 hrec with h0 | hle
          · right; rw [hlen, h0]; omega
          · right; rw [hlen]; omega
      · rw [if_neg hi] at h; simp at h
    · rw [if_neg hp] at h
      have hlen : (presentEntries (e :: rest) pw).length =
          (presentEntries rest pw).length := by
        simp [presentEntries, hp]
      rcases ih (i + 1) r h with h0 | hle
      · left; rw [hlen]; exact h0
      · right; rw [hlen]; omega

/-- Loop invariant: while the stack from position `i` on agrees with the rows
of the present entries still to be processed, a successful loop accumulates
exactly the two spec sums (restricted to the remaining entries). -/
theorem predictVarLoop_spec (pw mv : List (String × ℝ))
    (preds : List (List ℝ)) (m : ℝ) (t : ℕ) :
    ∀ (rest : List (String × List ℝ)) (i : ℕ) (wv bv : ℝ),
      preds.drop i = (presentEntries rest pw).map (fun e => e.2) →
      predictVarLoop pw mv preds m t rest i = some (wv, bv) →
      wv = ((presentEntries rest pw).map
              (fun e => weightOf pw e.1 * varianceOf mv e.1)).sum ∧
      bv = ((presentEntries rest pw).map
              (fun e => weightOf pw e.1 * (e.2.getD t 0 - m) ^ 2)).sum := by
  intro rest
  induction rest with
  | nil =>
    intro i wv bv _ h
    rw [predictVarLoop] at h
    simp only [Option.some.injEq, Prod.mk.injEq] at h
    simp [presentEntries, ← h.1, ← h.2]
  | cons e rest ih =>
    intro i wv bv hinv h
    rw [predictVarLoop] at h
    by_cases hp : (pw.lookup e.1).isSome
    · have hpe : presentEntries (e :: rest) pw = e :: presentEntries rest pw := by
        simp [presentEntries, hp]
      rw [hpe] at hinv
      rw [List.map_cons] at hinv
      have hi : i < preds.length := by
        by_contra hge
        have : preds.drop i = [] := List.drop_eq_nil_iff.mpr (by omega)
        rw [this] at hinv
        exact List.cons_ne_nil _ _ hinv.symm
      rw [if_pos hp, if_pos hi] at h
      cases hrec : predictVarLoop pw mv preds m t rest (i + 1) with
      | none => rw [hrec] at h; simp at h
      | some r2 =>
        rw [hrec] at h
        have hgetD : preds.getD i [] = e.2 := getD_of_drop_cons [] preds i _ _ hinv
        have hdrop : preds.drop (i + 1) = (presentEntries rest pw).map (fun e => e.2) := by
          rw [← List.tail_drop, hinv]; rfl
        obtain ⟨hwv, hbv⟩ := ih (i + 1) r2.1 r2.2 hdrop (by rw [hrec])
        simp only [Option.some.injEq, Prod.mk.injEq] at h
        refine ⟨?_, ?_⟩
        · rw [hpe, List.map_cons, List.sum_cons, ← h.1, hwv]; ring
        · rw [hpe, List.map_cons, List.sum_cons, ← h.2, hbv, hgetD]; ring
    · have hpe : presentEntries (e :: rest) pw = presentEntries rest pw := by
        simp [presentEntries, hp]
      rw [if_neg hp] at h
      -- the invariant survives the skipped entry only because nothing present remains
      rcases predictVarLoop_count pw mv preds m t rest (i + 1) (wv, bv) h with h0 | hle
      · have hnil : presentEntries rest pw = [] := List.length_eq_zero.mp h0
        have hdrop1 : preds.drop i = [] := by rw [hinv, hpe, hnil]; rfl
        have hdrop2 : preds.drop (i + 1) = [] :=
          List.drop_eq_nil_iff.mpr (by have := List.drop_eq_nil_iff.mp hdrop1; omega)
        obtain ⟨hwv, hbv⟩ := ih (i + 1) wv bv (by rw [hdrop2, hnil]; rfl) h
        rw [hpe]; exact ⟨hwv, hbv⟩
      · exfalso
        have hlen : (preds.drop i).length =
            ((presentEntries rest pw).map (fun e => e.2)).length := by rw [hinv, hpe]
        rw [List.length_drop, List.length_map] at hlen
        have hile : i ≤ preds.length := by
          by_contra hgt
          have : preds.length - i = 0 := by omega
          rw [this] at hlen
          omega
        omega

/-- C8: whenever `predict` returns (no IndexError), the total variance
underlying the returned std at every time step is exactly the within-model
variance plus the between-model variance, each summed over the models present
in both the input and the stored posterior weights. -/
theorem c8_variance_decomposition (mp : List (String × List ℝ))
    (pw mv : List (String × ℝ)) (t : ℕ) (v : ℝ)
    (h : bmaTotalVar mp pw mv t = some v) :
    v = withinVarSpec mp pw mv + betweenVarSpec mp pw t := by
  rw [bmaTotalVar] at h
  cases hloop : predictVarLoop pw mv (allPreds mp pw) (bmaMean mp pw t) t mp 0 with
  | none => rw [hloop] at h; simp at h
  | some r =>
    rw [hloop] at h
    simp only [Option.map_some', Option.some.injEq] at h
    obtain ⟨hwv, hbv⟩ := predictVarLoop_spec pw mv (allPreds mp pw)
      (bmaMean mp pw t) t mp 0 r.1 r.2 (by rw [List.drop_zero]; rfl) hloop
    rw [← h, withinVarSpec, betweenVarSpec, hwv, hbv]

/-- C8 witness: one model, one weight, one variance, one time step; the loop
returns and the value decomposes as claimed. -/
theorem c8_variance_decomposition_witness :
    ∃ v, bmaTotalVar [("A", [(1 : ℝ)])] [("A", (1 : ℝ))] [("A", (2 : ℝ))] 0 =
        some v ∧
      v = withinVarSpec [("A", [(1 : ℝ)])] [("A", (1 : ℝ))] [("A", (2 : ℝ))] +
          betweenVarSpec [("A", [(1 : ℝ)])] [("A", (1 : ℝ))] 0 := by
  have h : bmaTotalVar [("A", [(1 : ℝ)])] [("A", (1 : ℝ))] [("A", (2 : ℝ))] 0 =
      some ((0 + weightOf [("A", (1 : ℝ))] "A" * varianceOf [("A", (2 : ℝ))] "A") +
        (0 + weightOf [("A", (1 : ℝ))] "A" *
          (((allPreds [("A", [(1 : ℝ)])] [("A", (1 : ℝ))]).getD 0 []).getD 0 0 -
            bmaMean [("A", [(1 : ℝ)])] [("A", (1 : ℝ))] 0) ^ 2)) := by
    simp [bmaTotalVar, predictVarLoop, allPreds, presentEntries]
  exact ⟨_, h, c8_variance_decomposition _ _ _ _ _ h⟩

/-! ## QuantileMappingCorrection -/

/-- The mutable attributes of a `QuantileMappingCorrection` instance.  Fields
that a branch of `fit` does not set remain at their previous value (Python
attributes simply stay absent / unchanged); `none` stands for "never set".
For the gamma branch the positive subsets handed to `stats.gamma.fit` are
stored; the gamma MLE itself is scipy-internal. -/
structure QMState where
  method : String
  fitted : Bool
  sortedModel : List ℝ
  sortedObs : List ℝ
  quantiles : Option (List ℝ)
  normParams : Option (ℝ × ℝ × ℝ × ℝ)
  gammaData : Option (List ℝ × List ℝ)

/-- `QuantileMappingCorrection.__init__(method)`. -/
def initQM (method : String) : QMState :=
  ⟨method, false, [], [], none, none, none⟩

/-- `self.quantiles = (np.arange(1, n + 1) - 0.5) / n`. -/
noncomputable def quantileList (n : ℕ) : List ℝ :=
  (List.range n).map (fun k : ℕ => ((k : ℝ) + 1 - 0.5) / (n : ℝ))

/-- `np.searchsorted(xs, v)` (side `left`): for sorted `xs`, the number of
elements strictly below `v`. -/
noncomputable def searchsortedLeft (xs : List ℝ) (v : ℝ) : ℕ :=
  xs.countP (fun a => decide (a < v))

/-- The linear-interpolation kernel of `scipy.interpolate.interp1d`: clip the
searchsorted index into `[1, len-1]`, then evaluate the secant through the two
bracketing knots. -/
noncomputable def callLinear (xs ys : List ℝ) (v : ℝ) : ℝ :=
  let i := min (max (searchsortedLeft xs v) 1) (xs.length - 1)
  (ys.getD i 0 - ys.getD (i - 1) 0) / (xs.getD i 0 - xs.getD (i - 1) 0) *
      (v - xs.getD (i - 1) 0) + ys.getD (i - 1) 0

/-- `interp1d(xs, ys, bounds_error=False, fill_value=(fillLo, fillHi))`
evaluated at `v`: out-of-range inputs take the fill values, in-range inputs
are linearly interpolated. -/
noncomputable def interp1dEval (xs ys : List ℝ) (fillLo fillHi v : ℝ) : ℝ :=
  if v < xs.getD 0 0 then fillLo
  else if xs.getD (xs.length - 1) 0 < v then fillHi
  else callLinear xs ys v

/-- The empirical branch of `fit` (also entered by the gamma fallback): sort
both series, build the rank quantiles, and construct the two interpolants.
`interp1d` raises a `ValueError` when given fewer than 2 knots or arrays of
different lengths; those are the only raising paths. -/
noncomputable def fitEmpirical (s : QMState) (modelData obsData : List ℝ) :
    Except String QMState :=
  let sm := npSort modelData
  let so := npSort obsData
  if sm.length < 2 then
    .error "ValueError: x and y arrays must have at least 2 entries"
  else if so.length ≠ sm.length then
    .error "ValueError: x and y arrays must be equal in length"
  else
    .ok { s with
      sortedModel := sm, sortedObs := so,
      quantiles := some (quantileList sm.length), fitted := true }

/-- `QuantileMappingCorrection.fit`.  The method-name dispatch performs no
validation: a name matching no branch falls through and only sets
`fitted = True`.  The gamma branch filters to strictly positive values and,
when either filtered set has at most 2 points, overwrites `self.method` with
"empirical" and re-enters `fit` on the original data (embedded as the direct
call to `fitEmpirical`, which is what that re-entry executes). -/
noncomputable def fit (s : QMState) (modelData obsData : List ℝ) :
    Except String QMState :=
  if s.method = "empirical" then fitEmpirical s modelData obsData
  else if s.method = "parametric_normal" then
    .ok { s with
      sortedModel := npSort modelData, sortedObs := npSort obsData,
      normParams := some (npMean modelData, npStd modelData,
                          npMean obsData, npStd obsData),
      fitted := true }
  else if s.method = "parametric_gamma" then
    let mpos := modelData.filter (fun x => decide (0 < x))
    let opos := obsData.filter (fun x => decide (0 < x))
    if 2 < mpos.length ∧ 2 < opos.length then
      .ok { s with
        sortedModel := npSort modelData, sortedObs := npSort obsData,
        gammaData := some (mpos, opos), fitted := true }
    else
      fitEmpirical { s with method := "empirical" } modelData obsData
  else
    .ok { s with
      sortedModel := npSort modelData, sortedObs := npSort obsData,
      fitted := true }

/-- The empirical transform of a single value: map through the fitted
model-CDF interpolant (fill `(0, 1)`), then through the fitted inverse-CDF
interpolant over the observations (fill `(obs_data[0], obs_data[-1])`). -/
noncomputable def transformEmpiricalVal (sm qs so : List ℝ) (v : ℝ) : ℝ :=
  interp1dEval qs so (so.getD 0 0) (so.getD (so.length - 1) 0)
    (interp1dEval sm qs 0 1 v)

/-- The parametric_normal transform of a single value:
`(v - model_mean) / model_std * obs_std + obs_mean`. -/
noncomputable def transformNormalVal (mm ms om os v : ℝ) : ℝ :=
  (v - mm) / ms * os + om

/-- Division with an explicit zero-denominator check: `none` records that the
source would perform a division by zero at this point (no finite value). -/
noncomputable def cdiv (a b : ℝ) : Option ℝ :=
  if b = 0 then none else some (a / b)

/-- The parametric_normal transform with its single division checked: the
source computes `(v - model_mean) / model_std` with no epsilon and no branch,
so the result is undefined (`none`) exactly when `model_std = 0`. -/
noncomputable def transformNormalChecked (mm ms om os v : ℝ) : Option ℝ :=
  (cdiv (v - mm) ms).map (fun z => z * os + om)

/-- Modelled from the spec: for positive inputs the gamma method maps through
the scipy model-gamma CDF and observation-gamma inverse CDF
(`stats.gamma.cdf` / `stats.gamma.ppf` on the MLE fits) — library routines
external to the repository.  No claim depends on this value, so it is left as
a fixed abstract constant of the fitted data and the input. -/
noncomputable def scipyGammaMapVal (_g : List ℝ × List ℝ) (_v : ℝ) : ℝ := 0

/-- `QuantileMappingCorrection.transform` on a single value.  Raises if not
fitted; for an unknown method the Python body falls through all branches and
`return corrected` raises `UnboundLocalError`. -/
noncomputable def transform (s : QMState) (v : ℝ) : Except String ℝ :=
  if s.fitted = false then .error "Must call fit() first"
  else if s.method = "empirical" then
    .ok (transformEmpiricalVal s.sortedModel (s.quantiles.getD []) s.sortedObs v)
  else if s.method = "parametric_normal" then
    match s.normParams with
    | some (mm, ms, om, os) => .ok (transformNormalVal mm ms om os v)
    | none => .error "AttributeError: parameters never fitted"
  else if s.method = "parametric_gamma" then
    match s.gammaData with
    | some g => .ok (if v ≤ 0 then 0 else scipyGammaMapVal g v)
    | none => .error "AttributeError: parameters never fitted"
  else .error "UnboundLocalError: corrected referenced before assignment"

/-! ### C5: fit never raises a ConfigurationError -/

/-- C5 counterexample: `fit` with the unsupported method name "linear_bogus"
on single-point series returns without error and marks the corrector fitted,
and `fit` with `parametric_normal` on single-point series does too — where
the claim demands a `ConfigurationError` in both situations. -/
theorem c5_fit_does_not_validate :
    (fit (initQM "linear_bogus") [(1 : ℝ)] [2] =
      .ok { (initQM "linear_bogus") with
            sortedModel := npSort [(1 : ℝ)],
            sortedObs := npSort [(2 : ℝ)], fitted := true }) ∧
    (fit (initQM "parametric_normal") [(5 : ℝ)] [7] =
      .ok { (initQM "parametric_normal") with
            sortedModel := npSort [(5 : ℝ)],
            sortedObs := npSort [(7 : ℝ)],
            normParams := some (npMean [(5 : ℝ)], npStd [(5 : ℝ)],
                                npMean [(7 : ℝ)], npStd [(7 : ℝ)]),
            fitted := true }) := by
  constructor
  · simp [fit, initQM]
  · simp [fit, initQM]

theorem npSort_perm (xs : List ℝ) : (npSort xs).Perm xs :=
  List.mergeSort_perm xs _

theorem npSort_length (xs : List ℝ) : (npSort xs).length = xs.length :=
  (npSort_perm xs).length_eq

/-- C5 amended: `fit` itself validates nothing and never raises a
`ConfigurationError`.  An unsupported method name silently succeeds and marks
the corrector fitted; the `parametric_normal` branch succeeds even on
single-point input; with the `empirical` method the `interp1d` library call
raises (a `ValueError`, propagated immediately) exactly when the model series
has fewer than 2 points or the two series differ in length, and otherwise the
empirical fit succeeds and marks the corrector fitted. -/
theorem c5_fit_error_behaviour (s : QMState) (m o : List ℝ) :
    (s.method ≠ "empirical" → s.method ≠ "parametric_normal" →
      s.method ≠ "parametric_gamma" →
      fit s m o = .ok { s with sortedModel := npSort m, sortedObs := npSort o,
                               fitted := true }) ∧
    (s.method = "parametric_normal" → ∃ s', fit s m o = .ok s' ∧
      s'.fitted = true) ∧
    (s.method = "empirical" → m.length < 2 ∨ o.length ≠ m.length →
      ∃ e, fit s m o = .error e) ∧
    (s.method = "empirical" → 2 ≤ m.length → o.length = m.length →
      ∃ s', fit s m o = .ok s' ∧ s'.fitted = true) := by
  refine ⟨?_, ?_, ?_, ?_⟩
  · intro h1 h2 h3
    rw [fit, if_neg h1, if_neg h2, if_neg h3]
  · intro h1
    rw [fit]
    by_cases h0 : s.method = "empirical"
    · rw [h0] at h1; simp at h1
    · rw [if_neg h0, if_pos h1]
      exact ⟨_, rfl, rfl⟩
  · intro h0 hbad
    rw [fit, if_pos h0, fitEmpirical]
    rcases hbad with hlt | hne
    · rw [if_pos (by rw [npSort_length]; exact hlt)]
      exact ⟨_, rfl⟩
    · by_cases hlt : (npSort m).length < 2
      · rw [if_pos hlt]; exact ⟨_, rfl⟩
      · rw [if_neg hlt, if_pos (by rw [npSort_length, npSort_length]; exact hne)]
        exact ⟨_, rfl⟩
  · intro h0 hge hlen
    rw [fit, if_pos h0, fitEmpirical,
      if_neg (by rw [npSort_length]; omega),
      if_neg (by rw [npSort_length, npSort_length, hlen]; simp)]
    exact ⟨_, rfl, rfl⟩

/-- C5 amended, witness: concrete instances of all four clauses. -/
theorem c5_fit_error_behaviour_witness :
    (fit (initQM "bogus") [(1 : ℝ), 2] [3, 4] =
      .ok { (initQM "bogus") with
            sortedModel := npSort [(1 : ℝ), 2],
            sortedObs := npSort [(3 : ℝ), 4], fitted := true }) ∧
    (∃ s', fit (initQM "parametric_normal") [(5 : ℝ)] [7] = .ok s' ∧
      s'.fitted = true) ∧
    (∃ e, fit (initQM "empirical") [(1 : ℝ)] [2] = .error e) ∧
    (∃ s', fit (initQM "empirical") [(1 : ℝ), 2] [3, 4] = .ok s' ∧
      s'.fitted = true) :=
  ⟨(c5_fit_error_behaviour (initQM "bogus") [(1 : ℝ), 2] [3, 4]).1
      (by simp [initQM]) (by simp [initQM]) (by simp [initQM]),
   (c5_fit_error_behaviour (initQM "parametric_normal") [(5 : ℝ)] [7]).2.1 rfl,
   (c5_fit_error_behaviour (initQM "empirical") [(1 : ℝ)] [2]).2.2.1 rfl
      (Or.inl (by simp)),
   (c5_fit_error_behaviour (initQM "empirical") [(1 : ℝ), 2] [3, 4]).2.2.2 rfl
      (by simp) (by simp)⟩

/-! ### C4 / C7: the unguarded division of the parametric_normal transform -/

theorem npVar_two_same (a : ℝ) : npVar [a, a] = 0 := by
  simp [npVar, npMean]

theorem npStd_two_same (a : ℝ) : npStd [a, a] = 0 := by
  rw [npStd, npVar_two_same, Real.sqrt_zero]

/-- C4 counterexample: with `model_data = [2, 2]` the fitted model standard
deviation is `0`, and the `parametric_normal` transform performs an unguarded
division by it: checking that single division shows the transform has no
finite value at any input (`none`), contradicting "well-defined even when the
fitted model standard deviation is zero". -/
theorem c4_normal_transform_unguarded :
    npStd [(2 : ℝ), 2] = 0 ∧
    transformNormalChecked (npMean [(2 : ℝ), 2]) (npStd [(2 : ℝ), 2])
      (npMean [(1 : ℝ), 3]) (npStd [(1 : ℝ), 3]) 5 = none := by
  refine ⟨npStd_two_same 2, ?_⟩
  rw [npStd_two_same 2]
  simp [transformNormalChecked, cdiv]

/-- C4 amended: the divisions of the Bayesian component's likelihood are
guarded — the estimated variance is strictly positive thanks to the `1e-10`
constant, so the `2σ²` denominators never vanish — and the `parametric_normal`
transform is well-defined whenever the fitted model standard deviation is
nonzero; but that transform's division carries no epsilon and no conditional
branch, so at a zero model standard deviation it yields no finite value. -/
theorem c4_division_guards :
    (∀ predictions observations : List ℝ,
      0 < estimate_variance predictions observations) ∧
    (∀ mm om os v : ℝ, transformNormalChecked mm 0 om os v = none) ∧
    (∀ mm ms om os v : ℝ, ms ≠ 0 →
      transformNormalChecked mm ms om os v =
        some (transformNormalVal mm ms om os v)) := by
  refine ⟨?_, ?_, ?_⟩
  · intro predictions observations
    have hnum : 0 ≤ ((residuals predictions observations).map
        (fun x => (x - npMean (residuals predictions observations)) ^ 2)).sum :=
      List.sum_nonneg (by
        intro x hx
        rcases List.mem_map.mp hx with ⟨r, _, rfl⟩
        positivity)
    have hvar : 0 ≤ npVar (residuals predictions observations) :=
      div_nonneg hnum (by positivity)
    have : (0 : ℝ) < 1e-10 := by norm_num
    rw [estimate_variance]
    linarith
  · intro mm om os v
    simp [transformNormalChecked, cdiv]
  · intro mm ms om os v hms
    simp [transformNormalChecked, cdiv, hms, transformNormalVal]

/-- C4 amended, witness: concrete instances of all three clauses. -/
theorem c4_division_guards_witness :
    0 < estimate_variance [(1 : ℝ)] [2] ∧
    transformNormalChecked 0 0 0 1 5 = none ∧
    transformNormalChecked 0 1 0 1 5 = some (transformNormalVal 0 1 0 1 5) :=
  ⟨c4_division_guards.1 [(1 : ℝ)] [2],
   c4_division_guards.2.1 0 0 1 5,
   c4_division_guards.2.2 0 1 0 1 5 (by norm_num)⟩

/-- C7 counterexample: fit `parametric_normal` with `model_data = obs_data =
[1, 1]` (identical series).  The fitted model standard deviation is `0`, and
at the input `x = 0` the transform's z-score division is a division by zero:
no finite value is produced (numpy yields `nan`), so `transform(x) = x` fails
— the claim does not hold for every `model_data == obs_data`. -/
theorem c7_identity_fails_on_constant_data :
    (fit (initQM "parametric_normal") [(1 : ℝ), 1] [1, 1] =
      .ok { (initQM "parametric_normal") with
            sortedModel := npSort [(1 : ℝ), 1],
            sortedObs := npSort [(1 : ℝ), 1],
            normParams := some (npMean [(1 : ℝ), 1], npStd [(1 : ℝ), 1],
                                npMean [(1 : ℝ), 1], npStd [(1 : ℝ), 1]),
            fitted := true }) ∧
    npStd [(1 : ℝ), 1] = 0 ∧
    transformNormalChecked (npMean [(1 : ℝ), 1]) (npStd [(1 : ℝ), 1])
      (npMean [(1 : ℝ), 1]) (npStd [(1 : ℝ), 1]) 0 = none := by
  refine ⟨by simp [fit, initQM], npStd_two_same 1, ?_⟩
  rw [npStd_two_same 1]
  simp [transformNormalChecked, cdiv]

/-- C7 amended: if `fit` is called with the `parametric_normal` method and
`model_data` exactly equal to `obs_data`, and the (common) fitted standard
deviation is nonzero, then `transform` is the identity: `transform(x) = x`
exactly, for every input `x`. -/
theorem c7_normal_identity (data : List ℝ) (x : ℝ) (s : QMState)
    (hfit : fit (initQM "parametric_normal") data data = .ok s)
    (hstd : npStd data ≠ 0) :
    transform s x = .ok x := by
  rw [fit] at hfit
  simp only [initQM, String.reduceEq, if_false, if_true, reduceIte,
    Except.ok.injEq] at hfit
  rw [← hfit, transform]
  simp [transformNormalVal, div_mul_cancel₀ _ hstd]

/-- C7 amended, witness: `data = [1, 3]` has variance `1`, so the fitted
standard deviation is `1 ≠ 0`, and the transform returns its input `7`. -/
theorem c7_normal_identity_witness :
    transform { (initQM "parametric_normal") with
                sortedModel := npSort [(1 : ℝ), 3],
                sortedObs := npSort [(1 : ℝ), 3],
                normParams := some (npMean [(1 : ℝ), 3], npStd [(1 : ℝ), 3],
                                    npMean [(1 : ℝ), 3], npStd [(1 : ℝ), 3]),
                fitted := true } 7 = .ok 7 := by
  have hvar : npVar [(1 : ℝ), 3] = 1 := by
    simp [npVar, npMean]
    norm_num
  have hstd : npStd [(1 : ℝ), 3] ≠ 0 := by
    rw [npStd, hvar, Real.sqrt_one]
    norm_num
  exact c7_normal_identity [(1 : ℝ), 3] 7 _ (by simp [fit, initQM]) hstd

/-! ### compute_statistics

The bias and RMSE blocks of `QuantileMappingCorrection.compute_statistics`.
Every operation below is total (numpy degeneracies produce `nan`/`inf`
warnings, never exceptions; the KS test is an external scipy call on the same
inputs, raising only on empty input, which is not a numeric degeneracy). -/

/-- `bias_before = np.mean(model_data) - np.mean(obs_data)`. -/
noncomputable def bias_before (modelData obsData : List ℝ) : ℝ :=
  npMean modelData - npMean obsData

/-- `bias_after = np.mean(corrected_data) - np.mean(obs_data)`. -/
noncomputable def bias_after (correctedData obsData : List ℝ) : ℝ :=
  npMean correctedData - npMean obsData

/-- `rmse_before = np.sqrt(np.mean((model_data - obs_data)**2))`. -/
noncomputable def rmse_before (modelData obsData : List ℝ) : ℝ :=
  Real.sqrt (npMean (List.zipWith (fun a b => (a - b) ^ 2) modelData obsData))

/-- `rmse_after = np.sqrt(np.mean((corrected_data - obs_data)**2))`. -/
noncomputable def rmse_after (correctedData obsData : List ℝ) : ℝ :=
  Real.sqrt (npMean (List.zipWith (fun a b => (a - b) ^ 2) correctedData obsData))

/-- The `reduction_percent` of the `bias` block:
`(1 - abs(bias_after) / abs(bias_before)) * 100 if bias_before != 0 else 100`. -/
noncomputable def bias_reduction_percent (modelData obsData correctedData : List ℝ) : ℝ :=
  if bias_before modelData obsData ≠ 0 then
    (1 - |bias_after correctedData obsData| / |bias_before modelData obsData|) * 100
  else 100

/-- The `reduction_percent` of the `rmse` block:
`(1 - rmse_after / rmse_before) * 100 if rmse_before > 0 else 0`. -/
noncomputable def rmse_reduction_percent (modelData obsData correctedData : List ℝ) : ℝ :=
  if 0 < rmse_before modelData obsData then
    (1 - rmse_after correctedData obsData / rmse_before modelData obsData) * 100
  else 0

/-- C9: the reduction percentages are total functions of the inputs with the
claimed values in every case: the bias reduction is
`(1 - |bias_after|/|bias_before|)*100` when `bias_before ≠ 0` and the sentinel
`100` when `bias_before = 0`; the RMSE reduction is
`(1 - rmse_after/rmse_before)*100` when `rmse_before > 0` and the sentinel `0`
when `rmse_before ≤ 0` (and `rmse_before`, a square root, is never negative,
so that case is exactly `rmse_before = 0`).  No branch divides by the
vanishing quantity, so the degeneracies never raise. -/
theorem c9_reduction_percent_guards (modelData obsData correctedData : List ℝ) :
    (bias_before modelData obsData ≠ 0 →
      bias_reduction_percent modelData obsData correctedData =
        (1 - |bias_after correctedData obsData| /
          |bias_before modelData obsData|) * 100) ∧
    (bias_before modelData obsData = 0 →
      bias_reduction_percent modelData obsData correctedData = 100) ∧
    (0 < rmse_before modelData obsData →
      rmse_reduction_percent modelData obsData correctedData =
        (1 - rmse_after correctedData obsData /
          rmse_before modelData obsData) * 100) ∧
    (rmse_before modelData obsData ≤ 0 →
      rmse_reduction_percent modelData obsData correctedData = 0) ∧
    0 ≤ rmse_before modelData obsData := by
  refine ⟨?_, ?_, ?_, ?_, Real.sqrt_nonneg _⟩
  · intro h; rw [bias_reduction_percent, if_pos h]
  · intro h; rw [bias_reduction_percent, if_neg (by simp [h])]
  · intro h; rw [rmse_reduction_percent, if_pos h]
  · intro h; rw [rmse_reduction_percent, if_neg (by simp; exact h)]

/-- C9 witness: on identical series both degenerate sentinels fire:
`bias_before = 0` gives a reduction of `100`, `rmse_before = 0` gives `0`. -/
theorem c9_reduction_percent_guards_witness :
    bias_reduction_percent [(1 : ℝ), 2] [1, 2] [1, 2] = 100 ∧
    rmse_reduction_percent [(1 : ℝ), 2] [1, 2] [1, 2] = 0 := by
  have hb : bias_before [(1 : ℝ), 2] [1, 2] = 0 := by
    simp [bias_before]
  have hr : rmse_before [(1 : ℝ), 2] [1, 2] ≤ 0 := by
    rw [rmse_before]
    simp [npMean]
  exact ⟨(c9_reduction_percent_guards [(1 : ℝ), 2] [1, 2] [1, 2]).2.1 hb,
         (c9_reduction_percent_guards [(1 : ℝ), 2] [1, 2] [1, 2]).2.2.2.1 hr⟩

/-! ### Order facts about `npSort`, the rank quantiles and `searchsorted` -/

theorem npSort_sorted (xs : List ℝ) : List.Sorted (· ≤ ·) (npSort xs) := by
  have h := @List.sorted_mergeSort ℝ (fun a b : ℝ => decide (a ≤ b))
    (fun a b c hab hbc => by
      simp only [decide_eq_true_eq] at *
      exact le_trans hab hbc)
    (fun a b => by
      simp only [Bool.or_eq_true, decide_eq_true_eq]
      exact le_total a b)
    xs
  exact h.imp (fun {a b} hab => by simpa using hab)

theorem sorted_getD_le_getD (l : List ℝ) (hl : List.Sorted (· ≤ ·) l)
    {i j : ℕ} (hij : i ≤ j) (hj : j < l.length) : l.getD i 0 ≤ l.getD j 0 := by
  rcases eq_or_lt_of_le hij with rfl | hlt
  · exact le_refl _
  · rw [List.getD_eq_getElem l 0 (lt_of_le_of_lt hij hj),
      List.getD_eq_getElem l 0 hj]
    exact List.pairwise_iff_getElem.mp hl i j _ _ hlt

/-- In a `≤`-sorted list, every index below `countP (· < v)` holds an element
strictly below `v` (the elements below `v` form an initial segment). -/
theorem sorted_getD_lt_of_lt_countP (v : ℝ) :
    ∀ (xs : List ℝ), List.Sorted (· ≤ ·) xs →
      ∀ j, j < xs.countP (fun a => decide (a < v)) → xs.getD j 0 < v := by
  intro xs
  induction xs with
  | nil => simp
  | cons x t ih =>
    intro hs j hj
    rw [List.countP_cons] at hj
    by_cases hx : x < v
    · cases j with
      | zero => simpa using hx
      | succ j =>
        have hj' : j < t.countP (fun a => decide (a < v)) := by
          simp [hx] at hj; omega
        simpa using ih hs.of_cons j hj'
    · have hzero : t.countP (fun a => decide (a < v)) = 0 := by
        rw [List.countP_eq_zero]
        intro a ha
        simp only [decide_eq_true_eq]
        intro hav
        exact hx (lt_of_le_of_lt (List.rel_of_sorted_cons hs a ha) hav)
      simp [hx, hzero] at hj
/-- In a `≤`-sorted list, the element at index `countP (· < v)` (when it
exists) is at least `v`. -/
theorem sorted_le_getD_countP (v : ℝ) :
    ∀ (xs : List ℝ), List.Sorted (· ≤ ·) xs →
      xs.countP (fun a => decide (a < v)) < xs.length →
      v ≤ xs.getD (xs.countP (fun a => decide (a < v))) 0 := by
  intro xs
  induction xs with
  | nil => simp
  | cons x t ih =>
    intro hs hlen
    rw [List.countP_cons]
    by_cases hx : x < v
    · rw [List.countP_cons] at hlen
      simp only [hx, decide_eq_true_eq, if_pos] at hlen ⊢
      have hlt : t.countP (fun a => decide (a < v)) < t.length := by
        simp [hx] at hlen; omega
      simpa [hx] using ih hs.of_cons hlt
    · have hzero : t.countP (fun a => decide (a < v)) = 0 := by
        rw [List.countP_eq_zero]
        intro a ha
        simp only [decide_eq_true_eq]
        intro hav
        exact hx (lt_of_le_of_lt (List.rel_of_sorted_cons hs a ha) hav)
      simp [hx, hzero, le_of_not_lt hx]

theorem quantileList_length (n : ℕ) : (quantileList n).length = n := by
  simp [quantileList]

theorem quantileList_sorted (n : ℕ) (hn : 0 < n) :
    List.Sorted (· < ·) (quantileList n) := by
  rw [quantileList, List.Sorted, List.pairwise_map]
  have := List.pairwise_lt_range n
  refine this.imp ?_
  intro a b hab
  have hcast : (a : ℝ) < b := by exact_mod_cast hab
  have hnpos : (0 : ℝ) < n := by exact_mod_cast hn
  exact div_lt_div_of_pos_right (by linarith) hnpos

/-- Clamping property of `interp1d` with strictly increasing knots `xs`,
`≤`-sorted values `ys` of the same length (at least 2), and the first/last
values as fill: for every input, the result lies between the first and the
last value.  Out-of-range inputs take the fills; in-range inputs land on the
secant between two consecutive values, hence between them. -/
theorem interp1dEval_bounds (xs ys : List ℝ)
    (hxs : List.Sorted (· < ·) xs) (hys : List.Sorted (· ≤ ·) ys)
    (hlen : ys.length = xs.length) (hn : 2 ≤ xs.length) (v : ℝ) :
    ys.getD 0 0 ≤ interp1dEval xs ys (ys.getD 0 0) (ys.getD (ys.length - 1) 0) v ∧
    interp1dEval xs ys (ys.getD 0 0) (ys.getD (ys.length - 1) 0) v ≤
      ys.getD (ys.length - 1) 0 := by
  have hxs_le : List.Sorted (· ≤ ·) xs := hxs.imp (fun {a b} h => le_of_lt h)
  have hyslen : 2 ≤ ys.length := by omega
  have hhl : ys.getD 0 0 ≤ ys.getD (ys.length - 1) 0 :=
    sorted_getD_le_getD ys hys (Nat.zero_le _) (by omega)
  rw [interp1dEval]
  by_cases h1 : v < xs.getD 0 0
  · rw [if_pos h1]
    exact ⟨le_refl _, hhl⟩
  rw [if_neg h1]
  by_cases h2 : xs.getD (xs.length - 1) 0 < v
  · rw [if_pos h2]
    exact ⟨hhl, le_refl _⟩
  rw [if_neg h2]
  push_neg at h1 h2
  simp only [callLinear, searchsortedLeft]
  set c := xs.countP (fun a => decide (a < v)) with hc
  have hcle : c ≤ xs.length - 1 := by
    by_contra hgt
    have hc_le : c ≤ xs.length := List.countP_le_length _
    have : xs.length - 1 < c := by omega
    exact absurd (sorted_getD_lt_of_lt_countP v xs hxs_le (xs.length - 1) this)
      (not_lt.mpr h2)
  by_cases hc0 : c = 0
  · have hi : min (max c 1) (xs.length - 1) = 1 := by omega
    rw [hi]
    have hv_le : v ≤ xs.getD 0 0 := by
      have := sorted_le_getD_countP v xs hxs_le (by omega)
      rw [← hc, hc0] at this
      exact this
    have hveq : v = xs.getD 0 0 := le_antisymm hv_le h1
    have h10 : (1 : ℕ) - 1 = 0 := rfl
    rw [h10, hveq, sub_self, mul_zero, zero_add]
    constructor
    · exact le_refl _
    · exact hhl
  · have hc1 : 1 ≤ c := by omega
    have hi : min (max c 1) (xs.length - 1) = c := by omega
    rw [hi]
    have hxlo_lt_v : xs.getD (c - 1) 0 < v :=
      sorted_getD_lt_of_lt_countP v xs hxs_le (c - 1) (by omega)
    have hv_le_xhi : v ≤ xs.getD c 0 := by
      have := sorted_le_getD_countP v xs hxs_le (by omega)
      rw [← hc] at this
      exact this
    have hxlo_lt_xhi : xs.getD (c - 1) 0 < xs.getD c 0 := by
      rw [List.getD_eq_getElem xs 0 (show c - 1 < xs.length by omega),
        List.getD_eq_getElem xs 0 (show c < xs.length by omega)]
      exact List.pairwise_iff_getElem.mp hxs (c - 1) c _ _ (by omega)
    have hylo_le_yhi : ys.getD (c - 1) 0 ≤ ys.getD c 0 :=
      sorted_getD_le_getD ys hys (by omega) (by omega)
    have hlo_le_ylo : ys.getD 0 0 ≤ ys.getD (c - 1) 0 :=
      sorted_getD_le_getD ys hys (Nat.zero_le _) (by omega)
    have hyhi_le_hi : ys.getD c 0 ≤ ys.getD (ys.length - 1) 0 :=
      sorted_getD_le_getD ys hys (by omega) (by omega)
    have hD : (0 : ℝ) < xs.getD c 0 - xs.getD (c - 1) 0 := by linarith
    have hA : (0 : ℝ) ≤ v - xs.getD (c - 1) 0 := by linarith
    have hAD : v - xs.getD (c - 1) 0 ≤ xs.getD c 0 - xs.getD (c - 1) 0 := by
      linarith
    have hslope : (0 : ℝ) ≤
        (ys.getD c 0 - ys.getD (c - 1) 0) / (xs.getD c 0 - xs.getD (c - 1) 0) :=
      div_nonneg (by linarith) (le_of_lt hD)
    have hlow : (0 : ℝ) ≤
        (ys.getD c 0 - ys.getD (c - 1) 0) / (xs.getD c 0 - xs.getD (c - 1) 0) *
          (v - xs.getD (c - 1) 0) :=
      mul_nonneg hslope hA
    have hup : (ys.getD c 0 - ys.getD (c - 1) 0) /
          (xs.getD c 0 - xs.getD (c - 1) 0) * (v - xs.getD (c - 1) 0) ≤
        ys.getD c 0 - ys.getD (c - 1) 0 := by
      have h := mul_le_mul_of_nonneg_left hAD hslope
      rwa [div_mul_cancel₀ _ (ne_of_gt hD)] at h
    constructor
    · linarith
    · linarith

/-! ### `npMin` / `npMax` versus the ends of the sorted array -/

theorem foldl_min_le (l : List ℝ) :
    ∀ a : ℝ, l.foldl min a ≤ a ∧ ∀ y ∈ l, l.foldl min a ≤ y := by
  induction l with
  | nil => intro a; simp
  | cons x t ih =>
    intro a
    have h := ih (min a x)
    refine ⟨le_trans h.1 (min_le_left a x), ?_⟩
    intro y hy
    rcases List.mem_cons.mp hy with rfl | hyt
    · exact le_trans h.1 (min_le_right a y)
    · exact h.2 y hyt

theorem foldl_min_mem (l : List ℝ) :
    ∀ a : ℝ, l.foldl min a = a ∨ l.foldl min a ∈ l := by
  induction l with
  | nil => intro a; simp
  | cons x t ih =>
    intro a
    rcases ih (min a x) with h | h
    · rcases min_choice a x with hax | hax
      · left; rw [List.foldl_cons, h, hax]
      · right; rw [List.foldl_cons, h, hax]; exact List.mem_cons_self x t
    · right; exact List.mem_cons_of_mem x h

theorem foldl_max_le (l : List ℝ) :
    ∀ a : ℝ, a ≤ l.foldl max a ∧ ∀ y ∈ l, y ≤ l.foldl max a := by
  induction l with
  | nil => intro a; simp
  | cons x t ih =>
    intro a
    have h := ih (max a x)
    refine ⟨le_trans (le_max_left a x) h.1, ?_⟩
    intro y hy
    rcases List.mem_cons.mp hy with rfl | hyt
    · exact le_trans (le_max_right a y) h.1
    · exact h.2 y hyt

theorem foldl_max_mem (l : List ℝ) :
    ∀ a : ℝ, l.foldl max a = a ∨ l.foldl max a ∈ l := by
  induction l with
  | nil => intro a; simp
  | cons x t ih =>
    intro a
    rcases ih (max a x) with h | h
    · rcases max_choice a x with hax | hax
      · left; rw [List.foldl_cons, h, hax]
      · right; rw [List.foldl_cons, h, hax]; exact List.mem_cons_self x t
    · right; exact List.mem_cons_of_mem x h

theorem npMin_le (l : List ℝ) (y : ℝ) (hy : y ∈ l) : npMin l ≤ y := by
  cases l with
  | nil => cases hy
  | cons x t =>
    rw [npMin]
    rcases List.mem_cons.mp hy with rfl | hyt
    · exact (foldl_min_le t y).1
    · exact (foldl_min_le t x).2 y hyt

theorem npMin_mem (l : List ℝ) (h : l ≠ []) : npMin l ∈ l := by
  cases l with
  | nil => exact absurd rfl h
  | cons x t =>
    rw [npMin]
    rcases foldl_min_mem t x with heq | hmem
    · rw [heq]; exact List.mem_cons_self x t
    · exact List.mem_cons_of_mem x hmem

theorem le_npMax (l : List ℝ) (y : ℝ) (hy : y ∈ l) : y ≤ npMax l := by
  cases l with
  | nil => cases hy
  | cons x t =>
    rw [npMax]
    rcases List.mem_cons.mp hy with rfl | hyt
    · exact (foldl_max_le t y).1
    · exact (foldl_max_le t x).2 y hyt

theorem npMax_mem (l : List ℝ) (h : l ≠ []) : npMax l ∈ l := by
  cases l with
  | nil => exact absurd rfl h
  | cons x t =>
    rw [npMax]
    rcases foldl_max_mem t x with heq | hmem
    · rw [heq]; exact List.mem_cons_self x t
    · exact List.mem_cons_of_mem x hmem

theorem npSort_mem_iff (l : List ℝ) (y : ℝ) : y ∈ npSort l ↔ y ∈ l :=
  (npSort_perm l).mem_iff

/-- The first element of the sorted copy is `np.min` of the original data. -/
theorem npSort_getD_zero (l : List ℝ) (h : l ≠ []) :
    (npSort l).getD 0 0 = npMin l := by
  have hlen : 0 < (npSort l).length := by
    rw [npSort_length]
    exact List.length_pos.mpr h
  have hheadmem : (npSort l).getD 0 0 ∈ l := by
    rw [List.getD_eq_getElem _ 0 hlen, ← npSort_mem_iff]
    exact List.getElem_mem hlen
  have h1 : npMin l ≤ (npSort l).getD 0 0 := npMin_le l _ hheadmem
  have h2 : (npSort l).getD 0 0 ≤ npMin l := by
    have hmem : npMin l ∈ npSort l := (npSort_mem_iff l _).mpr (npMin_mem l h)
    rcases List.mem_iff_getElem.mp hmem with ⟨j, hj, hje⟩
    rw [← hje]
    cases Nat.eq_zero_or_pos j with
    | inl hj0 =>
      subst hj0
      rw [List.getD_eq_getElem _ 0 hlen]
    | inr hjpos =>
      rw [List.getD_eq_getElem _ 0 hlen]
      exact List.pairwise_iff_getElem.mp (npSort_sorted l) 0 j hlen hj hjpos
  exact le_antisymm h2 h1

/-- The last element of the sorted copy is `np.max` of the original data. -/
theorem npSort_getD_last (l : List ℝ) (h : l ≠ []) :
    (npSort l).getD ((npSort l).length - 1) 0 = npMax l := by
  have hlen : 0 < (npSort l).length := by
    rw [npSort_length]
    exact List.length_pos.mpr h
  have hlastmem : (npSort l).getD ((npSort l).length - 1) 0 ∈ l := by
    rw [List.getD_eq_getElem _ 0 (by omega), ← npSort_mem_iff]
    exact List.getElem_mem (by omega)
  have h1 : (npSort l).getD ((npSort l).length - 1) 0 ≤ npMax l :=
    le_npMax l _ hlastmem
  have h2 : npMax l ≤ (npSort l).getD ((npSort l).length - 1) 0 := by
    have hmem : npMax l ∈ npSort l := (npSort_mem_iff l _).mpr (npMax_mem l h)
    rcases List.mem_iff_getElem.mp hmem with ⟨j, hj, hje⟩
    rw [← hje]
    rcases Nat.lt_or_ge j ((npSort l).length - 1) with hjlt | hjge
    · rw [List.getD_eq_getElem _ 0 (by omega)]
      exact List.pairwise_iff_getElem.mp (npSort_sorted l) j
        ((npSort l).length - 1) hj (by omega) hjlt
    · have : j = (npSort l).length - 1 := by omega
      subst this
      rw [List.getD_eq_getElem _ 0 (by omega)]
  exact le_antisymm h1 h2

/-! ### C3 / C6 / C10: the empirical clamping invariant and the gamma fallback -/

/-- Inversion of a successful empirical fit: the resulting state and the
length conditions under which `interp1d` did not raise. -/
theorem fitEmpirical_ok (s0 : QMState) (modelData obsData : List ℝ) (s : QMState)
    (hfit : fitEmpirical s0 modelData obsData = .ok s) :
    s = { s0 with
          sortedModel := npSort modelData,
          sortedObs := npSort obsData,
          quantiles := some (quantileList (npSort modelData).length),
          fitted := true } ∧
    2 ≤ modelData.length ∧ obsData.length = modelData.length := by
  simp only [fitEmpirical] at hfit
  by_cases hlt : (npSort modelData).length < 2
  · rw [if_pos hlt] at hfit
    exact absurd hfit (by simp)
  rw [if_neg hlt] at hfit
  by_cases hne : (npSort obsData).length ≠ (npSort modelData).length
  · rw [if_pos hne] at hfit
    exact absurd hfit (by simp)
  rw [if_neg hne] at hfit
  push_neg at hne
  rw [npSort_length] at hlt
  rw [npSort_length, npSort_length] at hne
  exact ⟨(Except.ok.inj hfit).symm, by omega, hne⟩

/-- The composed empirical transform of any single value is clamped to
`[np.min(obs_data), np.max(obs_data)]`. -/
theorem transformEmpiricalVal_clamped (modelData obsData : List ℝ) (v : ℝ)
    (hm : 2 ≤ modelData.length) (hlen : obsData.length = modelData.length) :
    npMin obsData ≤ transformEmpiricalVal (npSort modelData)
        (quantileList (npSort modelData).length) (npSort obsData) v ∧
    transformEmpiricalVal (npSort modelData)
        (quantileList (npSort modelData).length) (npSort obsData) v ≤
      npMax obsData := by
  have hobs_ne : obsData ≠ [] := by
    intro h
    rw [h] at hlen
    simp at hlen
    omega
  have hqlen : (quantileList (npSort modelData).length).length =
      (npSort modelData).length := quantileList_length _
  have hbounds := interp1dEval_bounds (quantileList (npSort modelData).length)
    (npSort obsData)
    (quantileList_sorted _ (by rw [npSort_length]; omega))
    (npSort_sorted obsData)
    (by rw [npSort_length, hqlen, npSort_length, hlen])
    (by rw [hqlen, npSort_length]; omega)
    (interp1dEval (npSort modelData) (quantileList (npSort modelData).length)
      0 1 v)
  rw [transformEmpiricalVal, ← npSort_getD_zero obsData hobs_ne,
    ← npSort_getD_last obsData hobs_ne]
  exact hbounds

/-- C3: after a successful empirical fit, every transformed value of the model
series (indeed any input value) lies in `[min(obs_data), max(obs_data)]`. -/
theorem c3_empirical_transform_clamped (modelData obsData : List ℝ) (v : ℝ)
    (s : QMState) (c : ℝ)
    (hfit : fit (initQM "empirical") modelData obsData = .ok s)
    (_hv : v ∈ modelData)
    (ht : transform s v = .ok c) :
    npMin obsData ≤ c ∧ c ≤ npMax obsData := by
  rw [fit, if_pos (show (initQM "empirical").method = "empirical" from rfl)]
    at hfit
  obtain ⟨hs, hm, hlen⟩ := fitEmpirical_ok _ _ _ _ hfit
  subst hs
  rw [transform] at ht
  simp only [initQM, Option.getD_some, String.reduceEq, reduceIte] at ht
  have hc := Except.ok.inj ht
  rw [← hc]
  exact transformEmpiricalVal_clamped modelData obsData v hm hlen

/-- C3 witness: the two-point series `[1, 2]` against observations `[3, 4]`;
the transform of the model value `1` stays within `[min [3,4], max [3,4]]`. -/
theorem c3_empirical_transform_clamped_witness :
    npMin [(3 : ℝ), 4] ≤ transformEmpiricalVal (npSort [(1 : ℝ), 2])
      (quantileList (npSort [(1 : ℝ), 2]).length) (npSort [(3 : ℝ), 4]) 1 ∧
    transformEmpiricalVal (npSort [(1 : ℝ), 2])
      (quantileList (npSort [(1 : ℝ), 2]).length) (npSort [(3 : ℝ), 4]) 1 ≤
      npMax [(3 : ℝ), 4] := by
  refine c3_empirical_transform_clamped [(1 : ℝ), 2] [3, 4] 1
    { (initQM "empirical") with
      sortedModel := npSort [(1 : ℝ), 2], sortedObs := npSort [(3 : ℝ), 4],
      quantiles := some (quantileList (npSort [(1 : ℝ), 2]).length),
      fitted := true } _ ?_ (by simp) ?_
  · rw [fit, if_pos (show (initQM "empirical").method = "empirical" from rfl)]
    simp only [fitEmpirical]
    rw [if_neg (by rw [npSort_length]; norm_num),
      if_neg (by rw [npSort_length, npSort_length]; norm_num)]
  · rw [transform]
    simp [initQM]

/-- C6: when `fit` runs with the `parametric_gamma` method and either series
has at most 2 strictly positive values, the corrector falls back to the
empirical method fitted on the original unfiltered data: the resulting state
carries the empirical interpolants of the unfiltered sorted series, and the
subsequent transform of any value (in particular any element of the model
series) satisfies the empirical clamping invariant. -/
theorem c6_gamma_fallback_clamped (modelData obsData : List ℝ) (v : ℝ)
    (s : QMState)
    (hdeg : (modelData.filter (fun x => decide (0 < x))).length ≤ 2 ∨
            (obsData.filter (fun x => decide (0 < x))).length ≤ 2)
    (hfit : fit (initQM "parametric_gamma") modelData obsData = .ok s)
    (_hv : v ∈ modelData) :
    s.method = "empirical" ∧ s.fitted = true ∧
    s.sortedModel = npSort modelData ∧ s.sortedObs = npSort obsData ∧
    ∃ c, transform s v = .ok c ∧ npMin obsData ≤ c ∧ c ≤ npMax obsData := by
  rw [fit] at hfit
  rw [if_neg (show ¬ (initQM "parametric_gamma").method = "empirical" by
        simp [initQM]),
    if_neg (show ¬ (initQM "parametric_gamma").method = "parametric_normal" by
        simp [initQM]),
    if_pos (show (initQM "parametric_gamma").method = "parametric_gamma" from
        rfl)] at hfit
  simp only at hfit
  rw [if_neg (show ¬ (2 < (modelData.filter (fun x => decide (0 < x))).length ∧
      2 < (obsData.filter (fun x => decide (0 < x))).length) by
        rintro ⟨ha, hb⟩
        rcases hdeg with h | h <;> omega)] at hfit
  obtain ⟨hs, hm, hlen⟩ := fitEmpirical_ok _ _ _ _ hfit
  subst hs
  refine ⟨rfl, rfl, rfl, rfl, ?_⟩
  refine ⟨transformEmpiricalVal (npSort modelData)
    (quantileList (npSort modelData).length) (npSort obsData) v, ?_, ?_, ?_⟩
  · rw [transform]
    simp [initQM]
  · exact (transformEmpiricalVal_clamped modelData obsData v hm hlen).1
  · exact (transformEmpiricalVal_clamped modelData obsData v hm hlen).2

/-- C6 witness: `model_data = [1, 2]` has only 2 positive values, so the
gamma fit on it falls back; the fallback state is empirical and the transform
of the model value `1` is clamped to `[min [3,4], max [3,4]]`. -/
theorem c6_gamma_fallback_clamped_witness :
    ∃ s, fit (initQM "parametric_gamma") [(1 : ℝ), 2] [3, 4] = .ok s ∧
      s.method = "empirical" ∧
      ∃ c, transform s 1 = .ok c ∧ npMin [(3 : ℝ), 4] ≤ c ∧ c ≤ npMax [(3 : ℝ), 4] := by
  have hdeg : ((([(1 : ℝ), 2]).filter (fun x => decide (0 < x))).length ≤ 2) ∨
      ((([(3 : ℝ), 4]).filter (fun x => decide (0 < x))).length ≤ 2) := by
    left
    norm_num [List.filter]
  have hfit : fit (initQM "parametric_gamma") [(1 : ℝ), 2] [3, 4] =
      .ok { (initQM "parametric_gamma") with
            method := "empirical",
            sortedModel := npSort [(1 : ℝ), 2],
            sortedObs := npSort [(3 : ℝ), 4],
            quantiles := some (quantileList (npSort [(1 : ℝ), 2]).length),
            fitted := true } := by
    simp only [fit, initQM, String.reduceEq, reduceIte]
    rw [if_neg (by norm_num [List.filter])]
    simp only [fitEmpirical]
    rw [if_neg (by rw [npSort_length]; norm_num),
      if_neg (by rw [npSort_length, npSort_length]; norm_num)]
  obtain ⟨hm, _hf, _hsm, _hso, c, htr, hb1, hb2⟩ :=
    c6_gamma_fallback_clamped [(1 : ℝ), 2] [3, 4] 1 _ hdeg hfit (by simp)
  exact ⟨_, hfit, hm, c, htr, hb1, hb2⟩

/-- C10: once the gamma fallback has run, the instance's `method` attribute is
permanently `"empirical"`: a later `fit` on the same instance takes the
empirical branch even when the new data has more than 2 positive values in
both series, leaving `method = "empirical"`, never storing gamma parameters,
and refreshing the empirical interpolants from the new data. -/
theorem c10_gamma_fallback_is_permanent (m1 o1 m2 o2 : List ℝ) (s1 s2 : QMState)
    (hdeg : (m1.filter (fun x => decide (0 < x))).length ≤ 2 ∨
            (o1.filter (fun x => decide (0 < x))).length ≤ 2)
    (h1 : fit (initQM "parametric_gamma") m1 o1 = .ok s1)
    (_hgood : 2 < (m2.filter (fun x => decide (0 < x))).length ∧
              2 < (o2.filter (fun x => decide (0 < x))).length)
    (h2 : fit s1 m2 o2 = .ok s2) :
    s1.method = "empirical" ∧ s2.method = "empirical" ∧
    s2.gammaData = none ∧
    s2.quantiles = some (quantileList (npSort m2).length) ∧
    s2.sortedModel = npSort m2 ∧ s2.sortedObs = npSort o2 := by
  rw [fit] at h1
  rw [if_neg (show ¬ (initQM "parametric_gamma").method = "empirical" by
        simp [initQM]),
    if_neg (show ¬ (initQM "parametric_gamma").method = "parametric_normal" by
        simp [initQM]),
    if_pos (show (initQM "parametric_gamma").method = "parametric_gamma" from
        rfl)] at h1
  simp only at h1
  rw [if_neg (show ¬ (2 < (m1.filter (fun x => decide (0 < x))).length ∧
      2 < (o1.filter (fun x => decide (0 < x))).length) by
        rintro ⟨ha, hb⟩
        rcases hdeg with h | h <;> omega)] at h1
  obtain ⟨hs1, _, _⟩ := fitEmpirical_ok _ _ _ _ h1
  subst hs1
  rw [fit, if_pos rfl] at h2
  obtain ⟨hs2, _, _⟩ := fitEmpirical_ok _ _ _ _ h2
  subst hs2
  exact ⟨rfl, rfl, rfl, rfl, rfl, rfl⟩

/-- C10 witness: first fit with gamma on `[1, 2]` (only 2 positive values)
falls back; a second fit on `[1, 2, 3, 4]` against `[5, 6, 7, 8]` (4 positive
values each) still runs the empirical branch and stores no gamma data. -/
theorem c10_gamma_fallback_is_permanent_witness :
    ∃ s1 s2, fit (initQM "parametric_gamma") [(1 : ℝ), 2] [3, 4] = .ok s1 ∧
      fit s1 [(1 : ℝ), 2, 3, 4] [5, 6, 7, 8] = .ok s2 ∧
      s1.method = "empirical" ∧ s2.method = "empirical" ∧
      s2.gammaData = none := by
  have hdeg : ((([(1 : ℝ), 2]).filter (fun x => decide (0 < x))).length ≤ 2) ∨
      ((([(3 : ℝ), 4]).filter (fun x => decide (0 < x))).length ≤ 2) := by
    left
    norm_num [List.filter]
  have h1 : fit (initQM "parametric_gamma") [(1 : ℝ), 2] [3, 4] =
      .ok { (initQM "parametric_gamma") with
            method := "empirical",
            sortedModel := npSort [(1 : ℝ), 2],
            sortedObs := npSort [(3 : ℝ), 4],
            quantiles := some (quantileList (npSort [(1 : ℝ), 2]).length),
            fitted := true } := by
    simp only [fit, initQM, String.reduceEq, reduceIte]
    rw [if_neg (by norm_num [List.filter])]
    simp only [fitEmpirical]
    rw [if_neg (by rw [npSort_length]; norm_num),
      if_neg (by rw [npSort_length, npSort_length]; norm_num)]
  have h2 : fit { (initQM "parametric_gamma") with
            method := "empirical",
            sortedModel := npSort [(1 : ℝ), 2],
            sortedObs := npSort [(3 : ℝ), 4],
            quantiles := some (quantileList (npSort [(1 : ℝ), 2]).length),
            fitted := true } [(1 : ℝ), 2, 3, 4] [5, 6, 7, 8] =
      .ok { (initQM "parametric_gamma") with
            method := "empirical",
            sortedModel := npSort [(1 : ℝ), 2, 3, 4],
            sortedObs := npSort [(5 : ℝ), 6, 7, 8],
            quantiles := some (quantileList (npSort [(1 : ℝ), 2, 3, 4]).length),
            fitted := true } := by
    simp only [fit, initQM, String.reduceEq, reduceIte, fitEmpirical]
    rw [if_neg (by rw [npSort_length]; norm_num),
      if_neg (by rw [npSort_length, npSort_length]; norm_num)]
  have hgood : 2 < (([(1 : ℝ), 2, 3, 4]).filter (fun x => decide (0 < x))).length ∧
      2 < (([(5 : ℝ), 6, 7, 8]).filter (fun x => decide (0 < x))).length := by
    norm_num [List.filter]
  obtain ⟨hm1, hm2, hg, _, _, _⟩ :=
    c10_gamma_fallback_is_permanent [(1 : ℝ), 2] [3, 4] [(1 : ℝ), 2, 3, 4]
      [5, 6, 7, 8] _ _ hdeg h1 hgood h2
  exact ⟨_, _, h1, h2, hm1, hm2, hg⟩

end QPS
